import Mathlib

/-!
# Verification of the HFT simulator core (SPSC/MPSC queues, market-data engine,
# FIX codec and session engine, worker pool, performance monitor)

Shallow embedding of the C++ sources:
* `src/hft_simulator/cpp/include/lockfree_queue.h` (SPSCQueue, MPSCQueue)
* `src/hft_simulator/cpp/src/market_data_simulator.cpp`
* `src/hft_simulator/cpp/src/thread_pool.cpp` (ThreadPool, PerformanceMonitor)
* the FIX codec / session engine translation unit (FixMessage, FixEngine)

Strings are modelled as byte lists (`List Nat`), C++ `double` arithmetic as exact
rational arithmetic (`ℚ`), machine integers as `Nat`/`Int` with explicit wraps
where overflow matters.
-/

namespace HftSpec

/-! ## SPSC queue (lockfree_queue.h, lines 11-73)

The C++ class stores `head_`, `tail_` (both kept `< Size` by the modulo on every
advance) and a slot array `buffer_[Size]`.  The buffer is modelled as a total
function `Nat → T`; only indices `< Size` are ever read.  The single-producer /
single-consumer discipline is modelled by interleaving whole operations
(each `push`/`pop` is atomic at its linearization point, the release store of
the advanced index). -/

structure SPSCQueue (T : Type) (Size : Nat) where
  head : Nat
  tail : Nat
  buffer : Nat → T

variable {T : Type} {Size : Nat}

/-- `head_{0}; tail_{0}`: a fresh queue with both indices zero.  The slot array
is uninitialized in C++; we pass an arbitrary default `d`. -/
def SPSCQueue.init (d : T) : SPSCQueue T Size :=
  { head := 0, tail := 0, buffer := fun _ => d }

/-- `bool push(const T& item)` (lockfree_queue.h lines 26-37): compute
`next_tail = (tail + 1) % Size`; if it equals `head` the queue is full and
`false` is returned; otherwise store the item at `buffer_[tail]` and publish
`next_tail`. -/
def SPSCQueue.push (q : SPSCQueue T Size) (item : T) : Bool × SPSCQueue T Size :=
  let next_tail := (q.tail + 1) % Size
  if next_tail = q.head then
    (false, q)
  else
    (true, { q with
              buffer := fun i => if i = q.tail then item else q.buffer i,
              tail := next_tail })

/-- `bool pop(T& item)` (lockfree_queue.h lines 52-62): if `head == tail` the
queue is empty and `false` is returned; otherwise move out `buffer_[head]` and
publish `(head + 1) % Size`. -/
def SPSCQueue.pop (q : SPSCQueue T Size) : Option T × SPSCQueue T Size :=
  if q.head = q.tail then
    (none, q)
  else
    (some (q.buffer q.head), { q with head := (q.head + 1) % Size })

/-- `size_t size()` (lockfree_queue.h lines 68-72):
`(tail >= head) ? (tail - head) : (Size - head + tail)`. -/
def SPSCQueue.size (q : SPSCQueue T Size) : Nat :=
  if q.tail ≥ q.head then q.tail - q.head else Size - q.head + q.tail

/-- Both indices stay strictly below `Size`; established by the constructor and
preserved by every operation (each advance is reduced `% Size`). -/
def SPSCQueue.wf (q : SPSCQueue T Size) : Prop :=
  q.head < Size ∧ q.tail < Size

instance (q : SPSCQueue T Size) : Decidable q.wf := by
  unfold SPSCQueue.wf; infer_instance

/-- Abstraction function: the queue contents in FIFO order, oldest first. -/
def SPSCQueue.toList (q : SPSCQueue T Size) : List T :=
  (List.range q.size).map (fun i => q.buffer ((q.head + i) % Size))

/-! ### Traces of queue operations

One producer and one consumer interleave whole `push`/`pop` operations; a trace
is the linearization order of those operations.  `runTrace` returns the list of
values accepted by successful pushes, the list of values returned by
successful pops, and the final state. -/

inductive QOp (T : Type) where
  | push (x : T)
  | pop

def runTrace (q : SPSCQueue T Size) : List (QOp T) → List T × List T × SPSCQueue T Size
  | [] => ([], [], q)
  | QOp.push x :: ops =>
      let r := q.push x
      let rest := runTrace r.2 ops
      (if r.1 then x :: rest.1 else rest.1, rest.2.1, rest.2.2)
  | QOp.pop :: ops =>
      let r := q.pop
      let rest := runTrace r.2 ops
      (rest.1, (match r.1 with | some v => v :: rest.2.1 | none => rest.2.1), rest.2.2)

/-- Sequential pushes (no intervening pops), used by the bounded-capacity
claim: push each element of `xs` in order, collecting the returned booleans. -/
def pushSeq (q : SPSCQueue T Size) : List T → List Bool × SPSCQueue T Size
  | [] => ([], q)
  | x :: xs =>
      let r := q.push x
      let rest := pushSeq r.2 xs
      (r.1 :: rest.1, rest.2)

/-! ## MPSC queue (lockfree_queue.h, lines 76-121) and worker-pool submission
(thread_pool.cpp, lines 30-34)

`MPSCQueue::push` first reserves a slot with `fetch_add` on `tail_` (the
counter is unbounded; the slot index is `tail % Size`), then spins in a yield
loop while the slot's occupancy flag is still set, then writes the payload and
releases the flag, returning `true`.  In a semantics where no other thread runs
while the producer spins, an occupied slot means the call does not return:
outcome `blocked`.  When the slot is free the call completes and the returned
boolean is `true`. -/

structure MPSCQueue (T : Type) (Size : Nat) where
  head : Nat
  tail : Nat
  buffer : Nat → T
  occupied : Nat → Bool

inductive PushOutcome (T : Type) (Size : Nat) where
  | completed (returned : Bool) (q : MPSCQueue T Size)
  | blocked

/-- `bool push(const T& item)` (lockfree_queue.h lines 91-102).  The `tail_`
fetch-add has already happened when the producer starts spinning, but a
`blocked` call never returns, so no later state is observable from it. -/
def MPSCQueue.push (q : MPSCQueue T Size) (item : T) : PushOutcome T Size :=
  let slot := q.tail % Size
  if q.occupied slot then PushOutcome.blocked
  else PushOutcome.completed true
    { q with tail := q.tail + 1,
             buffer := fun i => if i = slot then item else q.buffer i,
             occupied := fun i => if i = slot then true else q.occupied i }

inductive SubmitOutcome (T : Type) (Size : Nat) where
  | ok (q : MPSCQueue T Size)
  | threw
  | blocked

/-- `void ThreadPool::submit_detached(std::function<void()> task)`
(thread_pool.cpp lines 30-34): `if (!task_queue_.push(std::move(task)))
throw std::runtime_error("Task queue is full");`.  A `false` return from `push`
maps to `threw`; completion with `true` maps to `ok`. -/
def submit_detached (q : MPSCQueue T Size) (task : T) : SubmitOutcome T Size :=
  match q.push task with
  | PushOutcome.completed true q2 => SubmitOutcome.ok q2
  | PushOutcome.completed false _ => SubmitOutcome.threw
  | PushOutcome.blocked => SubmitOutcome.blocked

/-- A task queue of the ThreadPool capacity (10000) in which every slot is
occupied: ten thousand tasks were pushed and none popped. -/
def fullTaskQueue : MPSCQueue Nat 10000 :=
  { head := 0, tail := 10000, buffer := fun _ => 0, occupied := fun _ => true }

/-! ## Market-data engine (market_data_simulator.cpp)

C++ `double` arithmetic is modelled exactly over `ℚ`; `Quantity` (`int64_t`)
sizes are modelled as `Int` (the draws lie in `[100, 10000]`, far from any
overflow). -/

structure TickQ where
  symbol : List Nat
  bid : ℚ
  ask : ℚ
  bidSize : Int
  askSize : Int
  last : ℚ
  lastSize : Int
  timestamp : Nat
deriving DecidableEq

/-- The random draws consumed by one `generate_tick` call.  `volDraw` is the
`volatility_dist_` draw (bound to the unused variable `change_factor`),
`changeDraw` the `price_change_dist_` draw, `sizeFlag` is
`gen_() % 10 == 0`, `tradeFlag` is `gen_() % 5 == 0`, `sideFlag` is
`gen_() % 2 == 0`, and `bidSz`, `askSz`, `tradeSz` are `size_dist_` draws. -/
structure Draws where
  changeDraw : ℚ
  volDraw : ℚ
  sizeFlag : Bool
  bidSz : Int
  askSz : Int
  tradeFlag : Bool
  sideFlag : Bool
  tradeSz : Int
  time : Nat

/-- `MarketDataSimulator::update_price` (market_data_simulator.cpp lines
145-163), with the two distribution draws passed explicitly.  `volatility` is
the constant `0.001` argument of the call in `generate_tick`.  The drawn
`change_factor` (`volDraw`) is computed but never used, exactly as in the
source. -/
def update_price (t : TickQ) (volatility volDraw changeDraw : ℚ) : TickQ :=
  let _change_factor := volDraw
  let price_change := changeDraw * volatility
  let mid_price0 := (t.bid + t.ask) / 2
  let mid_price := mid_price0 * (1 + price_change)
  let spread := mid_price * (1 / 1000)
  let bid1 := mid_price - spread / 2
  let ask1 := mid_price + spread / 2
  let bid2 := max bid1 (1 / 100)
  let ask2 := max ask1 (bid2 + 1 / 100)
  { t with bid := bid2, ask := ask2 }

/-- `MarketDataSimulator::generate_tick` (lines 115-143): update the price,
stamp the timestamp, with probability 1/10 refresh the sizes, with probability
1/5 print a trade at bid or ask with a size draw divided by 10. -/
def generate_tick (t : TickQ) (d : Draws) : TickQ :=
  let t1 := update_price t (1 / 1000) d.volDraw d.changeDraw
  let t2 := { t1 with timestamp := d.time }
  let t3 := if d.sizeFlag then { t2 with bidSize := d.bidSz, askSize := d.askSz } else t2
  if d.tradeFlag then
    { t3 with last := if d.sideFlag then t3.bid else t3.ask, lastSize := d.tradeSz / 10 }
  else t3

/-- `MarketDataSimulator::add_symbol` (lines 23-37): initial bid/ask are
`price * 0.999` and `price * 1.001`, sizes are `size_dist_` draws. -/
def initialTick (symbol : List Nat) (initial_price : ℚ)
    (bidSz askSz lastSz : Int) (ts : Nat) : TickQ :=
  { symbol := symbol
    bid := initial_price * (999 / 1000)
    ask := initial_price * (1001 / 1000)
    bidSize := bidSz
    askSize := askSz
    last := initial_price
    lastSize := lastSz
    timestamp := ts }

/-- The per-symbol stream of ticks published by the generator loop
(`generate_market_data`, lines 94-113): each pass mutates the current tick via
`generate_tick` and pushes the result. -/
def tickStream (t : TickQ) : List Draws → List TickQ
  | [] => []
  | d :: ds =>
      let t1 := generate_tick t d
      t1 :: tickStream t1 ds

/-- `size_dist_` is `uniform_int_distribution<>(100, 10000)`. -/
def sizeInRange (n : Int) : Prop := 100 ≤ n ∧ n ≤ 10000

instance (n : Int) : Decidable (sizeInRange n) := by unfold sizeInRange; infer_instance

def validDraw (d : Draws) : Prop :=
  sizeInRange d.bidSz ∧ sizeInRange d.askSz ∧ sizeInRange d.tradeSz

instance (d : Draws) : Decidable (validDraw d) := by unfold validDraw; infer_instance

/-- The tick-validity property of the claim: `0.01 ≤ bid`,
`bid + 0.01 ≤ ask`, `bid_size > 0`, `ask_size > 0`. -/
def tickOk (t : TickQ) : Prop :=
  1 / 100 ≤ t.bid ∧ t.bid + 1 / 100 ≤ t.ask ∧ 0 < t.bidSize ∧ 0 < t.askSize

instance (t : TickQ) : Decidable (tickOk t) := by unfold tickOk; infer_instance

/-! ## Feed facade (`SimulatedMarketDataFeed`, market_data_simulator.cpp
lines 166-216)

The simulator's output ring is `SPSCQueue<Tick, 1000000>`; the facade holds a
subscription vector.  `get_tick` pops unconditionally and only then filters by
subscription. -/

structure Feed (Size : Nat) where
  sim : SPSCQueue TickQ Size
  subscribed : List (List Nat)

/-- `bool SimulatedMarketDataFeed::get_tick(Tick& tick)` (lines 188-196).  The
middle component is the value left in the out-parameter: the popped tick when
the pop succeeded (whether or not it is subscribed), `none` otherwise. -/
def Feed.get_tick (f : Feed Size) : Bool × Option TickQ × Feed Size :=
  match SPSCQueue.pop f.sim with
  | (none, q2) => (false, none, { f with sim := q2 })
  | (some t, q2) => (decide (t.symbol ∈ f.subscribed), some t, { f with sim := q2 })

/-! ## FIX codec (`FixMessage`)

Frames are ordered maps from `int` tags to byte-string values
(`std::map<int, std::string> fields_`), modelled as association lists sorted
strictly ascending by tag — the iteration order of `std::map`.  Bytes are
`Nat` (each below 256 in any real string). -/

/-- The field separator, the single byte 0x01. -/
def SOH : Nat := 1

/-- The bytes of `"FIX.4.4"`, set for tag 8 by the `FixMessage` constructor. -/
def fix44 : List Nat := [70, 73, 88, 46, 52, 46, 52]

/-- Decimal rendering, fuel-indexed so that it is structurally recursive
(`n < fuel` always holds at the call sites). -/
def natDecAux : Nat → Nat → List Nat
  | 0, _ => []
  | fuel + 1, n =>
    if n < 10 then [n + 48]
    else natDecAux fuel (n / 10) ++ [n % 10 + 48]

/-- Decimal rendering of a natural number, most significant digit first, as
produced by the C++ stream insertion operator. -/
def natDec (n : Nat) : List Nat := natDecAux (n + 1) n

/-- Decimal rendering of an `int` (stream insertion): minus sign then the
digits of the absolute value. -/
def intDec (i : Int) : List Nat :=
  if i < 0 then 45 :: natDec i.natAbs else natDec i.toNat

/-- `std::setfill('0') << std::setw(3)`: pad the decimal rendering to at least
three bytes with leading zeros. -/
def pad3 (n : Nat) : List Nat :=
  List.replicate (3 - (natDec n).length) 48 ++ natDec n

/-- The checksum accumulation: sum of the byte values
(`checksum += static_cast<unsigned char>(c)`). -/
def byteSum (s : List Nat) : Nat := s.foldl (fun a b => a + b) 0

abbrev FieldMap := List (Int × List Nat)

/-- `fields_.find(tag)` on the sorted association list. -/
def alookup (t : Int) : FieldMap → Option (List Nat)
  | [] => none
  | f :: m => if f.1 = t then some f.2 else alookup t m

/-- `std::string get_field(int tag)`: the mapped value, or `""` when the tag is
absent. -/
def get_field (m : FieldMap) (t : Int) : List Nat :=
  match alookup t m with
  | some v => v
  | none => []

/-- `fields_[tag] = value`: sorted insert-or-overwrite, as for `std::map`. -/
def mapInsert (t : Int) (v : List Nat) : FieldMap → FieldMap
  | [] => [(t, v)]
  | f :: m =>
    if t < f.1 then (t, v) :: f :: m
    else if t = f.1 then (t, v) :: m
    else f :: mapInsert t v m

/-- The `std::map` representation invariant: keys strictly ascending. -/
def sortedMap (m : FieldMap) : Prop :=
  m.Pairwise (fun a b => a.1 < b.1)

instance (m : FieldMap) : Decidable (sortedMap m) := by
  unfold sortedMap
  infer_instance

/-- One serialized field `tag=value⟨SOH⟩` (61 is the byte of the equals
sign). -/
def serializeField (t : Int) (v : List Nat) : List Nat :=
  intDec t ++ [61] ++ v ++ [SOH]

/-- The tag filter of the body loop in `to_string`: everything except
BEGIN_STRING (8), BODY_LENGTH (9), CHECKSUM (10). -/
def isBodyTag (t : Int) : Bool := !(t == 8 || t == 9 || t == 10)

/-- The serialized body (`to_string`, lines 59-66): all non-reserved fields in
ascending tag order. -/
def bodyStr (m : FieldMap) : List Nat :=
  ((m.filter (fun f => isBodyTag f.1)).map (fun f => serializeField f.1 f.2)).flatten

/-- The serialization up to (and excluding) the checksum field
(`message_without_checksum`, line 77): `8=<begin>⟨SOH⟩9=<len>⟨SOH⟩<body>`. -/
def preChecksum (m : FieldMap) : List Nat :=
  serializeField 8 (get_field m 8) ++
  serializeField 9 (natDec (bodyStr m).length) ++
  bodyStr m

/-- `std::string FixMessage::to_string()` (lines 55-87): prefix, then the
checksum field `10=<sum mod 256, three zero-padded digits>⟨SOH⟩`. -/
def to_string (m : FieldMap) : List Nat :=
  preChecksum m ++ intDec 10 ++ [61] ++ pad3 (byteSum (preChecksum m) % 256) ++ [SOH]

/-! ### Parsing (`FixMessage::parse_message`, lines 119-136)

The C++ loop scans for `'='`, converts the preceding text with `std::stoi`
(which throws on text that does not start with an optional sign and a digit,
or on a value outside the `int` range), scans for SOH (taking the rest of the
input if none), stores the field, and continues after the SOH.  The scan is
modelled as a two-phase accumulator machine that is structurally recursive on
the input bytes; `Except.error ()` models the `std::stoi` exception escaping
`parse_message`. -/

def isSpaceByte (b : Nat) : Bool := b == 32 || (9 ≤ b && b ≤ 13)

def isDigitByte (b : Nat) : Bool := 48 ≤ b && b ≤ 57

/-- Consume the maximal digit prefix, accumulating its value. -/
def readDigits : List Nat → Nat → Nat × List Nat
  | [], acc => (acc, [])
  | b :: bs, acc =>
    if isDigitByte b then readDigits bs (acc * 10 + (b - 48)) else (acc, b :: bs)

/-- `std::stoi` after whitespace skipping: optional sign, at least one digit,
trailing bytes ignored; result must fit in a 32-bit `int`
(otherwise `std::out_of_range`). `none` models a thrown exception. -/
def stoiCore (s : List Nat) : Option Int :=
  match s with
  | [] => none
  | b :: rest =>
    if b = 45 then
      if rest.head?.any isDigitByte then some (-((readDigits rest 0).1 : Int)) else none
    else if b = 43 then
      if rest.head?.any isDigitByte then some ((readDigits rest 0).1 : Int) else none
    else
      if isDigitByte b then some ((readDigits (b :: rest) 0).1 : Int) else none

def stoiRange (v : Int) : Prop := -2147483648 ≤ v ∧ v < 2147483648

instance (v : Int) : Decidable (stoiRange v) := by unfold stoiRange; infer_instance

def stoiOpt (s : List Nat) : Option Int :=
  match stoiCore (s.dropWhile isSpaceByte) with
  | none => none
  | some v => if stoiRange v then some v else none

/-- The parse loop.  `phase = none`: scanning for `'='`, `cur` holds the
reversed tag text read so far.  `phase = some tagBytes`: scanning for SOH,
`cur` holds the reversed value text.  End of input with no `'='` found is the
`break` of the C++ loop; end of input inside a value stores the unterminated
value (`soh_pos = msg.length()`). -/
def parseGo (acc : FieldMap) (phase : Option (List Nat)) (cur : List Nat) :
    List Nat → Except Unit FieldMap
  | [] =>
    match phase with
    | none => Except.ok acc
    | some tagBytes =>
      match stoiOpt tagBytes with
      | none => Except.error ()
      | some tag => Except.ok (mapInsert tag cur.reverse acc)
  | b :: bs =>
    match phase with
    | none =>
      if b = 61 then parseGo acc (some cur.reverse) [] bs
      else parseGo acc none (b :: cur) bs
    | some tagBytes =>
      if b = SOH then
        match stoiOpt tagBytes with
        | none => Except.error ()
        | some tag => parseGo (mapInsert tag cur.reverse acc) none [] bs
      else parseGo acc (some tagBytes) (b :: cur) bs

/-- `void FixMessage::parse_message(const std::string& msg)`: `fields_.clear()`
then the scan loop. -/
def parse_message (s : List Nat) : Except Unit FieldMap :=
  parseGo [] none [] s

/-- Decidable companion of `parse_message` success: every tag text encountered
by the scan converts with `std::stoi`. -/
def tagsOk (phase : Option (List Nat)) (cur : List Nat) : List Nat → Bool
  | [] =>
    match phase with
    | none => true
    | some tagBytes => (stoiOpt tagBytes).isSome
  | b :: bs =>
    match phase with
    | none =>
      if b = 61 then tagsOk (some cur.reverse) [] bs
      else tagsOk none (b :: cur) bs
    | some tagBytes =>
      if b = SOH then (stoiOpt tagBytes).isSome && tagsOk none [] bs
      else tagsOk (some tagBytes) (b :: cur) bs

def goodTags (s : List Nat) : Bool := tagsOk none [] s

/-! ## FIX session engine (`FixEngine`)

`next_seq_num_` starts at 1; `int get_next_seq_num() { return next_seq_num_++; }`
(fix_protocol.h line 265).  Each emitting operation stamps tag 34 with one
fresh counter value: `logon()` and `logout()` and `send_heartbeat()` and
`send_new_order()` set it explicitly before `send_message` (which then finds
the tag present), and `send_message` on a frame lacking tag 34 stamps it
itself.  `logout()` returns immediately when not logged on.  The model tracks
the session state and the sequence numbers stamped on emitted frames. -/

structure FixEngineState where
  next_seq_num : Nat
  logged_on : Bool
deriving DecidableEq

/-- Constructor state: `next_seq_num_(1), logged_on_(false)`. -/
def initEngine : FixEngineState := ⟨1, false⟩

inductive SessionOp where
  | logon
  | logout
  | heartbeat
  | newOrder
  | sendFresh

/-- One outbound operation: the new state and the sequence numbers stamped on
the frames it emitted (empty for a `logout()` while not logged on). -/
def stepOp (s : FixEngineState) : SessionOp → FixEngineState × List Nat
  | SessionOp.logon => (⟨s.next_seq_num + 1, true⟩, [s.next_seq_num])
  | SessionOp.logout =>
      if s.logged_on then (⟨s.next_seq_num + 1, false⟩, [s.next_seq_num]) else (s, [])
  | SessionOp.heartbeat => (⟨s.next_seq_num + 1, s.logged_on⟩, [s.next_seq_num])
  | SessionOp.newOrder => (⟨s.next_seq_num + 1, s.logged_on⟩, [s.next_seq_num])
  | SessionOp.sendFresh => (⟨s.next_seq_num + 1, s.logged_on⟩, [s.next_seq_num])

def runSession (s : FixEngineState) : List SessionOp → FixEngineState × List Nat
  | [] => (s, [])
  | op :: ops =>
      let r := stepOp s op
      let rest := runSession r.1 ops
      (rest.1, r.2 ++ rest.2)

/-! ## Performance monitor (thread_pool.cpp, lines 170-263)

Latency samples (`std::chrono::nanoseconds`) are modelled as `Nat` counts.
`std::sort` ascending is modelled as `insertionSort (· ≤ ·)` — the sorted
ascending permutation of the samples.  In `calculate_percentile` the index is
`static_cast<size_t>(0.99 * N)`; for every reservoir size reachable in the
source (`record_latency` keeps at most 100000 samples) the double product
0.99·N rounds to a value whose truncation equals `⌊99·N/100⌋`, which is how
the index is modelled. -/

structure LatencyStats where
  min_latency : Nat
  max_latency : Nat
  avg_latency : Nat
  p99_latency : Nat
  total_messages : Nat
deriving DecidableEq

def sortedSamples (samples : List Nat) : List Nat :=
  samples.insertionSort (· ≤ ·)

/-- `Duration PerformanceMonitor::calculate_percentile(double)` at 0.99
(lines 249-263), including the (never firing) clamp to the last index. -/
def calculate_percentile (samples : List Nat) : Nat :=
  if samples.isEmpty then 0
  else
    let sorted := sortedSamples samples
    let index := 99 * samples.length / 100
    let index2 := if samples.length ≤ index then samples.length - 1 else index
    sorted.getD index2 0

/-- `LatencyStats PerformanceMonitor::get_latency_stats()` (lines 192-216):
all-zero stats on an empty reservoir, otherwise min/max from the sorted copy,
p99 via `calculate_percentile(0.99)`, integer-division mean. -/
def get_latency_stats (samples : List Nat) : LatencyStats :=
  if samples.isEmpty then ⟨0, 0, 0, 0, 0⟩
  else
    let sorted := sortedSamples samples
    { min_latency := sorted.headD 0
      max_latency := sorted.getLastD 0
      avg_latency := sorted.foldl (fun a b => a + b) 0 / samples.length
      p99_latency := calculate_percentile samples
      total_messages := samples.length }

/-! ## Concrete inputs used by counterexamples and witnesses -/

/-- A frame whose tag-35 value contains an SOH byte: fields
`{8 ↦ "FIX.4.4", 35 ↦ "\x0135=X"}`. -/
def cexFields : FieldMap := [(8, fix44), (35, [1, 51, 53, 61, 88])]

/-- The malformed input `"abc=1"`. -/
def cexParseInput : List Nat := [97, 98, 99, 61, 49]

/-- An empty worker-pool task queue. -/
def emptyTaskQueue : MPSCQueue Nat 10000 :=
  { head := 0, tail := 0, buffer := fun _ => 0, occupied := fun _ => false }

/-- A concrete draw record: no price move, sizes 500/600, trade of 700 at the
bid. -/
def draw0 : Draws :=
  { changeDraw := 0, volDraw := 1, sizeFlag := true, bidSz := 500, askSz := 600,
    tradeFlag := true, sideFlag := true, tradeSz := 700, time := 5 }

/-- A concrete tick for the feed witness: symbol `"A"`. -/
def tick0 : TickQ :=
  { symbol := [65], bid := 10, ask := 11, bidSize := 100, askSize := 100,
    last := 10, lastSize := 50, timestamp := 0 }

/-- A feed whose ring holds exactly `tick0` and which subscribes to `"A"`. -/
def feed0 : Feed 4 :=
  { sim := { head := 0, tail := 1, buffer := fun _ => tick0 }, subscribed := [[65]] }

theorem SPSCQueue.wf_init (d : T) (hS : 0 < Size) : (SPSCQueue.init d : SPSCQueue T Size).wf :=
  ⟨hS, hS⟩

theorem SPSCQueue.toList_init (d : T) : (SPSCQueue.init d : SPSCQueue T Size).toList = [] := by
  simp [SPSCQueue.toList, SPSCQueue.init, SPSCQueue.size]

theorem SPSCQueue.size_lt (q : SPSCQueue T Size) (hq : q.wf) : q.size < Size := by
  rcases hq with ⟨h1, h2⟩
  unfold SPSCQueue.size
  split <;> omega

theorem SPSCQueue.length_toList (q : SPSCQueue T Size) : q.toList.length = q.size := by
  simp [SPSCQueue.toList]

/-- The full test `(tail + 1) % Size = head` holds exactly when the queue
already holds `Size - 1` items. -/
theorem SPSCQueue.full_iff (q : SPSCQueue T Size) (hq : q.wf) (hS : 0 < Size) :
    (q.tail + 1) % Size = q.head ↔ q.size = Size - 1 := by
  rcases hq with ⟨h1, h2⟩
  unfold SPSCQueue.size
  rcases Nat.lt_or_ge (q.tail + 1) Size with h | h
  · rw [Nat.mod_eq_of_lt h]
    split <;> omega
  · have htail : q.tail + 1 = Size := by omega
    rw [htail, Nat.mod_self]
    split <;> omega

/-- The empty test `head = tail` holds exactly when the queue holds no items. -/
theorem SPSCQueue.empty_iff (q : SPSCQueue T Size) (hq : q.wf) :
    q.head = q.tail ↔ q.size = 0 := by
  rcases hq with ⟨h1, h2⟩
  unfold SPSCQueue.size
  split <;> omega

theorem mod_eq_of_lt_two_mul {a n : Nat} (h : a < 2 * n) :
    a % n = if a < n then a else a - n := by
  split
  · exact Nat.mod_eq_of_lt (by assumption)
  · rw [Nat.mod_eq_sub_mod (by omega), Nat.mod_eq_of_lt (by omega)]

/-- A failed push (full queue) returns `false` and leaves the state unchanged. -/
theorem SPSCQueue.push_full (q : SPSCQueue T Size) (x : T)
    (h : (q.tail + 1) % Size = q.head) : q.push x = (false, q) := by
  simp [SPSCQueue.push, h]

/-- A successful push returns `true`, preserves well-formedness, and appends the
item at the end of the FIFO contents. -/
theorem SPSCQueue.push_not_full (q : SPSCQueue T Size) (x : T) (hq : q.wf)
    (h : (q.tail + 1) % Size ≠ q.head) :
    ∃ q2 : SPSCQueue T Size, q.push x = (true, q2) ∧ q2.wf ∧
      q2.toList = q.toList ++ [x] ∧ q2.head = q.head := by
  rcases hq with ⟨h1, h2⟩
  have hS : 0 < Size := by omega
  refine ⟨⟨q.head, (q.tail + 1) % Size, fun i => if i = q.tail then x else q.buffer i⟩,
    ?_, ?_, ?_, rfl⟩
  · simp [SPSCQueue.push, h]
  · exact ⟨h1, Nat.mod_lt _ hS⟩
  · have hmod : (q.tail + 1) % Size = if q.tail + 1 < Size then q.tail + 1 else 0 := by
      rw [mod_eq_of_lt_two_mul (by omega)]
      split <;> omega
    have hsize :
        SPSCQueue.size (⟨q.head, (q.tail + 1) % Size,
            fun i => if i = q.tail then x else q.buffer i⟩ : SPSCQueue T Size) = q.size + 1 := by
      simp only [SPSCQueue.size, hmod]
      by_cases hc : q.tail + 1 < Size
      · have hne : q.tail + 1 ≠ q.head := by
          intro he; exact h (by rw [hmod, if_pos hc]; exact he)
        simp only [hc, if_true]
        split <;> split <;> omega
      · have hne : (0 : Nat) ≠ q.head := by
          intro he; exact h (by rw [hmod, if_neg hc]; exact he.symm ▸ rfl)
        simp only [hc, if_false]
        split <;> split <;> omega
    -- the slot written is `q.tail = (q.head + q.size) % Size`
    have hslot : (q.head + q.size) % Size = q.tail := by
      unfold SPSCQueue.size
      split
      · rw [Nat.add_sub_cancel' (by assumption), Nat.mod_eq_of_lt h2]
      · have he : q.head + (Size - q.head + q.tail) = Size + q.tail := by omega
        rw [he, mod_eq_of_lt_two_mul (by omega)]
        split <;> omega
    unfold SPSCQueue.toList
    rw [hsize, List.range_succ, List.map_append]
    congr 1
    · apply List.map_congr_left
      intro i hi
      have hi2 : i < q.size := List.mem_range.mp hi
      have hne : (q.head + i) % Size ≠ q.tail := by
        intro he
        have hiq : (q.head + i) % Size = (q.head + q.size) % Size := by rw [he, hslot]
        have hlt : q.size < Size := by
          unfold SPSCQueue.size; split <;> omega
        have e1 : (q.head + i) % Size =
            if q.head + i < Size then q.head + i else q.head + i - Size :=
          mod_eq_of_lt_two_mul (by omega)
        have e2 : (q.head + q.size) % Size =
            if q.head + q.size < Size then q.head + q.size else q.head + q.size - Size :=
          mod_eq_of_lt_two_mul (by omega)
        rw [e1, e2] at hiq
        split at hiq <;> split at hiq <;> omega
      simp [hne]
    · simp only [List.map_cons, List.map_nil, hslot]
      simp

/-- A pop from an empty queue returns `false` and leaves the state unchanged;
the FIFO contents are empty. -/
theorem SPSCQueue.pop_empty (q : SPSCQueue T Size) (hq : q.wf)
    (h : q.head = q.tail) : q.pop = (none, q) ∧ q.toList = [] := by
  constructor
  · simp [SPSCQueue.pop, h]
  · have : q.size = 0 := (q.empty_iff hq).mp h
    simp [SPSCQueue.toList, this]

/-- A successful pop returns the oldest item and removes it from the FIFO
contents. -/
theorem SPSCQueue.pop_not_empty (q : SPSCQueue T Size) (hq : q.wf)
    (h : q.head ≠ q.tail) :
    ∃ q2 : SPSCQueue T Size, q.pop = (some (q.buffer q.head), q2) ∧ q2.wf ∧
      q.toList = q.buffer q.head :: q2.toList := by
  rcases hq with ⟨h1, h2⟩
  have hS : 0 < Size := by omega
  refine ⟨(q.pop).2, ?_, ?_, ?_⟩
  · simp [SPSCQueue.pop, h]
  · exact ⟨by simp only [SPSCQueue.pop, h, if_false]; exact Nat.mod_lt _ hS,
      by simpa [SPSCQueue.pop, h] using h2⟩
  · have hmod : (q.head + 1) % Size = if q.head + 1 < Size then q.head + 1 else 0 := by
      rw [mod_eq_of_lt_two_mul (by omega)]
      split <;> omega
    have hsize : q.size = ((q.pop).2).size + 1 := by
      simp only [SPSCQueue.pop, h, if_false, SPSCQueue.size, hmod]
      by_cases hc : q.head + 1 < Size
      · simp only [hc, if_true]
        split <;> split <;> omega
      · simp only [hc, if_false]
        have : q.head = Size - 1 := by omega
        split <;> split <;> omega
    unfold SPSCQueue.toList
    rw [hsize, List.range_succ_eq_map, List.map_cons, List.map_map]
    congr 1
    · rw [Nat.add_zero, Nat.mod_eq_of_lt h1]
    · apply List.map_congr_left
      intro i _
      simp only [Function.comp_apply, SPSCQueue.pop, h, if_false]
      congr 1
      rw [Nat.mod_add_mod]
      congr 1
      omega

/-- FIFO refinement along any trace: the accepted pushes are exactly the
successful pops followed by the items still in the queue. -/
theorem runTrace_fifo (q : SPSCQueue T Size) (hq : q.wf)
    (ops : List (QOp T)) :
    (runTrace q ops).2.1 ++ (runTrace q ops).2.2.toList = q.toList ++ (runTrace q ops).1 ∧
      (runTrace q ops).2.2.wf := by
  induction ops generalizing q with
  | nil => exact ⟨by simp [runTrace], hq⟩
  | cons op ops ih =>
    cases op with
    | push x =>
      by_cases hfull : (q.tail + 1) % Size = q.head
      · have hp := q.push_full x hfull
        simp only [runTrace, hp]
        have := ih q hq
        simpa using this
      · obtain ⟨q2, hp, hwf2, hlist, -⟩ := q.push_not_full x hq hfull
        simp only [runTrace, hp]
        have := ih q2 hwf2
        simp only [hlist] at this
        simpa [List.append_assoc] using this
    | pop =>
      by_cases hempty : q.head = q.tail
      · have hp := q.pop_empty hq hempty
        simp only [runTrace, hp.1]
        have := ih q hq
        simpa [hp.2] using this
      · obtain ⟨q2, hp, hwf2, hlist⟩ := q.pop_not_empty hq hempty
        simp only [runTrace, hp]
        have := ih q2 hwf2
        simpa [hlist] using this

theorem pushSeq_results (q : SPSCQueue T Size) (hS : 0 < Size) (hq : q.wf)
    (xs : List T) :
    (pushSeq q xs).1 = (List.range xs.length).map (fun i => decide (q.size + i < Size - 1)) ∧
      (pushSeq q xs).2.wf ∧
      (pushSeq q xs).2.size = min (q.size + xs.length) (Size - 1) := by
  induction xs generalizing q with
  | nil =>
    refine ⟨rfl, hq, ?_⟩
    have := q.size_lt hq
    simp [pushSeq]
    omega
  | cons x xs ih =>
    by_cases hfull : (q.tail + 1) % Size = q.head
    · have hsz : q.size = Size - 1 := (q.full_iff hq hS).mp hfull
      have hp := q.push_full x hfull
      simp only [pushSeq, hp]
      obtain ⟨h1, h2, h3⟩ := ih q hq
      refine ⟨?_, h2, by simp only [h3, hsz, List.length_cons]; omega⟩
      rw [List.length_cons, List.range_succ_eq_map, List.map_cons, List.map_map, h1]
      refine congrArg₂ List.cons ?_ ?_
      · rw [eq_comm, decide_eq_false_iff_not]
        omega
      · apply List.map_congr_left
        intro i _
        simp only [Function.comp_apply]
        rw [decide_eq_decide]
        omega
    · have hsz : q.size ≠ Size - 1 := fun hc => hfull ((q.full_iff hq hS).mpr hc)
      have hszlt := q.size_lt hq
      obtain ⟨q2, hp, hwf2, hlist, -⟩ := q.push_not_full x hq hfull
      have hq2size : q2.size = q.size + 1 := by
        have hl := congrArg List.length hlist
        simpa [SPSCQueue.length_toList] using hl
      simp only [pushSeq, hp]
      obtain ⟨h1, h2, h3⟩ := ih q2 hwf2
      refine ⟨?_, h2, by simp only [h3, hq2size, List.length_cons]; omega⟩
      rw [List.length_cons, List.range_succ_eq_map, List.map_cons, List.map_map, h1]
      refine congrArg₂ List.cons ?_ ?_
      · rw [eq_comm, decide_eq_true_iff]
        omega
      · apply List.map_congr_left
        intro i _
        simp only [Function.comp_apply, hq2size]
        rw [decide_eq_decide]
        omega

/-- C2: SPSC ring refines a bounded FIFO queue.  For every interleaved trace
of push and pop operations starting from the fresh ring: a push returns
`false` exactly when `(tail + 1) % Size == head` held at its linearization
point, a pop returns `false` exactly when `head == tail` held, and the values
returned by successful pops followed by the ring's remaining contents are
exactly the values accepted by successful pushes, in order (so after the
consumer drains the ring, the popped sequence equals the accepted-push
sequence). -/
theorem spsc_ring_refines_fifo {T : Type} (Size : Nat) (d : T) (hS : 0 < Size)
    (ops : List (QOp T)) :
    (∀ (q : SPSCQueue T Size) (x : T),
        (q.push x).1 = false ↔ (q.tail + 1) % Size = q.head) ∧
    (∀ q : SPSCQueue T Size, q.pop.1 = none ↔ q.head = q.tail) ∧
    (runTrace (SPSCQueue.init d : SPSCQueue T Size) ops).2.1 ++
        (runTrace (SPSCQueue.init d : SPSCQueue T Size) ops).2.2.toList =
      (runTrace (SPSCQueue.init d : SPSCQueue T Size) ops).1 := by
  refine ⟨?_, ?_, ?_⟩
  · intro q x
    unfold SPSCQueue.push
    by_cases h : (q.tail + 1) % Size = q.head <;> simp [h]
  · intro q
    unfold SPSCQueue.pop
    by_cases h : q.head = q.tail <;> simp [h]
  · have h := (runTrace_fifo (SPSCQueue.init d : SPSCQueue T Size)
      (SPSCQueue.wf_init d hS) ops).1
    simpa [SPSCQueue.toList_init] using h

theorem spsc_ring_refines_fifo_witness :
    0 < 4 ∧
    (runTrace (SPSCQueue.init 0 : SPSCQueue Nat 4)
        [QOp.push 10, QOp.push 20, QOp.pop, QOp.push 30]).2.1 ++
        (runTrace (SPSCQueue.init 0 : SPSCQueue Nat 4)
        [QOp.push 10, QOp.push 20, QOp.pop, QOp.push 30]).2.2.toList =
      (runTrace (SPSCQueue.init 0 : SPSCQueue Nat 4)
        [QOp.push 10, QOp.push 20, QOp.pop, QOp.push 30]).1 :=
  ⟨by decide,
   (spsc_ring_refines_fifo 4 0 (by decide)
      [QOp.push 10, QOp.push 20, QOp.pop, QOp.push 30]).2.2⟩

/-- C10: an SPSC ring with template capacity `Size` holds at most `Size - 1`
items.  Pushing any sequence from the fresh ring with no intervening pops,
the i-th push (0-based) returns `true` exactly when `i < Size - 1` — so the
first `Size - 1` pushes succeed and the `Size`-th fails — and `size()` after
any prefix of the pushes never exceeds `Size - 1`. -/
theorem spsc_capacity_size_minus_one {T : Type} (Size : Nat) (d : T) (hS : 0 < Size)
    (xs : List T) :
    (pushSeq (SPSCQueue.init d : SPSCQueue T Size) xs).1 =
        (List.range xs.length).map (fun i => decide (i < Size - 1)) ∧
    ∀ k : Nat, (pushSeq (SPSCQueue.init d : SPSCQueue T Size) (xs.take k)).2.size ≤ Size - 1 := by
  have hwf : (SPSCQueue.init d : SPSCQueue T Size).wf := SPSCQueue.wf_init d hS
  have hsize0 : (SPSCQueue.init d : SPSCQueue T Size).size = 0 := by
    simp [SPSCQueue.init, SPSCQueue.size]
  constructor
  · have h := (pushSeq_results _ hS hwf xs).1
    rw [h, hsize0]
    simp
  · intro k
    have h := (pushSeq_results _ hS hwf (xs.take k)).2.2
    rw [h, hsize0]
    omega

theorem spsc_capacity_size_minus_one_witness :
    0 < 3 ∧
    (pushSeq (SPSCQueue.init 0 : SPSCQueue Nat 3) [7, 8, 9]).1 =
      (List.range [7, 8, 9].length).map (fun i => decide (i < 3 - 1)) :=
  ⟨by decide, (spsc_capacity_size_minus_one 3 0 (by decide) [7, 8, 9]).1⟩

/-! ## FIX session sequence numbers (C5) -/

theorem runSession_seq_nums (ops : List SessionOp) (s : FixEngineState) :
    (runSession s ops).2 = List.range' s.next_seq_num (runSession s ops).2.length ∧
    (runSession s ops).1.next_seq_num = s.next_seq_num + (runSession s ops).2.length := by
  induction ops generalizing s with
  | nil => simp [runSession]
  | cons op ops ih =>
    have step : ∀ s2 : FixEngineState, s2.next_seq_num = s.next_seq_num + 1 →
        (runSession s2 ops).1.next_seq_num =
            s.next_seq_num + (s.next_seq_num :: (runSession s2 ops).2).length ∧
        s.next_seq_num :: (runSession s2 ops).2 =
            List.range' s.next_seq_num (s.next_seq_num :: (runSession s2 ops).2).length := by
      intro s2 h2
      obtain ⟨e1, e2⟩ := ih s2
      constructor
      · rw [e2, List.length_cons]
        omega
      · rw [List.length_cons, List.range'_succ]
        have e3 : (runSession s2 ops).2 =
            List.range' (s.next_seq_num + 1) (runSession s2 ops).2.length := by
          rw [← h2]; exact e1
        exact congrArg _ e3
    cases op with
    | logon =>
      obtain ⟨h1, h2⟩ := step ⟨s.next_seq_num + 1, true⟩ rfl
      exact ⟨by simpa [runSession, stepOp] using h2, by simpa [runSession, stepOp] using h1⟩
    | logout =>
      by_cases h : s.logged_on
      · obtain ⟨h1, h2⟩ := step ⟨s.next_seq_num + 1, false⟩ rfl
        exact ⟨by simpa [runSession, stepOp, h] using h2,
               by simpa [runSession, stepOp, h] using h1⟩
      · obtain ⟨e1, e2⟩ := ih s
        exact ⟨by simpa [runSession, stepOp, h] using e1,
               by simpa [runSession, stepOp, h] using e2⟩
    | heartbeat =>
      obtain ⟨h1, h2⟩ := step ⟨s.next_seq_num + 1, s.logged_on⟩ rfl
      exact ⟨by simpa [runSession, stepOp] using h2, by simpa [runSession, stepOp] using h1⟩
    | newOrder =>
      obtain ⟨h1, h2⟩ := step ⟨s.next_seq_num + 1, s.logged_on⟩ rfl
      exact ⟨by simpa [runSession, stepOp] using h2, by simpa [runSession, stepOp] using h1⟩
    | sendFresh =>
      obtain ⟨h1, h2⟩ := step ⟨s.next_seq_num + 1, s.logged_on⟩ rfl
      exact ⟨by simpa [runSession, stepOp] using h2, by simpa [runSession, stepOp] using h1⟩

/-- C5: within one session, the sequence numbers stamped on outbound frames by
`logon`, `logout`, `send_heartbeat`, `send_new_order`, and `send_message` on
frames lacking a sequence tag form the contiguous strictly increasing sequence
1, 2, 3, …, with no number ever reused. -/
theorem session_seq_nums_contiguous (ops : List SessionOp) :
    (runSession initEngine ops).2 =
        List.range' 1 (runSession initEngine ops).2.length ∧
    (runSession initEngine ops).2.Nodup ∧
    List.Chain' (· < ·) (runSession initEngine ops).2 := by
  obtain ⟨h1, -⟩ := runSession_seq_nums ops initEngine
  refine ⟨h1, ?_, ?_⟩
  · rw [h1]
    exact List.nodup_range' _ _
  · rw [h1]
    exact (List.pairwise_lt_range' _ _).chain'

/-! ## Worker-pool submission (C6) -/

/-- C6 counterexample: with the bounded task queue full (every occupancy flag
still set), `submit_detached` does not report the failure to the caller as a
`false`/null return — in a semantics where no consumer clears a flag while the
producer spins, the call never returns at all (it blocks in the yield loop of
`MPSCQueue::push`). -/
theorem submit_full_queue_blocks :
    submit_detached fullTaskQueue 7 = SubmitOutcome.blocked := rfl

/-- C6 amended: `MPSCQueue::push` returns `true` whenever it completes, so
submission never reports failure by a `false`/null return and
`submit_detached` never reaches its throwing branch; when the reserved slot is
still occupied (queue full) the push spins without returning, and when the
slot is free the submission succeeds. -/
theorem submit_detached_never_reports_failure {T : Type} (Size : Nat)
    (q : MPSCQueue T Size) (task : T) :
    (∀ (r : Bool) (q2 : MPSCQueue T Size),
        q.push task = PushOutcome.completed r q2 → r = true) ∧
    (q.occupied (q.tail % Size) = true →
        submit_detached q task = SubmitOutcome.blocked) ∧
    (q.occupied (q.tail % Size) = false →
        submit_detached q task = SubmitOutcome.ok
          { q with tail := q.tail + 1,
                   buffer := fun i => if i = q.tail % Size then task else q.buffer i,
                   occupied := fun i => if i = q.tail % Size then true else q.occupied i }) ∧
    submit_detached q task ≠ SubmitOutcome.threw := by
  refine ⟨?_, ?_, ?_, ?_⟩
  · intro r q2 h
    unfold MPSCQueue.push at h
    by_cases hocc : q.occupied (q.tail % Size) <;> simp [hocc] at h
    exact h.1
  · intro hocc
    simp [submit_detached, MPSCQueue.push, hocc]
  · intro hocc
    simp [submit_detached, MPSCQueue.push, hocc]
  · unfold submit_detached MPSCQueue.push
    by_cases hocc : q.occupied (q.tail % Size) <;> simp [hocc]

theorem submit_detached_never_reports_failure_witness :
    (fullTaskQueue.occupied (fullTaskQueue.tail % 10000) = true ∧
      submit_detached fullTaskQueue 3 = SubmitOutcome.blocked) ∧
    (emptyTaskQueue.occupied (emptyTaskQueue.tail % 10000) = false ∧
      submit_detached emptyTaskQueue 3 ≠ SubmitOutcome.threw) :=
  ⟨⟨rfl, (submit_detached_never_reports_failure 10000 fullTaskQueue 3).2.1 rfl⟩,
   ⟨rfl, (submit_detached_never_reports_failure 10000 emptyTaskQueue 3).2.2.2⟩⟩

/-! ## Tick validity (C3) -/

theorem update_price_ok (t : TickQ) (volatility volDraw changeDraw : ℚ) :
    1 / 100 ≤ (update_price t volatility volDraw changeDraw).bid ∧
    (update_price t volatility volDraw changeDraw).bid + 1 / 100 ≤
        (update_price t volatility volDraw changeDraw).ask ∧
    (update_price t volatility volDraw changeDraw).bidSize = t.bidSize ∧
    (update_price t volatility volDraw changeDraw).askSize = t.askSize := by
  unfold update_price
  refine ⟨le_max_right _ _, le_max_right _ _, rfl, rfl⟩

/-- `generate_tick` takes its bid/ask from `update_price` and its sizes either
from fresh draws or from the previous tick. -/
theorem generate_tick_fields (t : TickQ) (d : Draws) :
    (generate_tick t d).bidSize = (if d.sizeFlag then d.bidSz else t.bidSize) ∧
    (generate_tick t d).askSize = (if d.sizeFlag then d.askSz else t.askSize) ∧
    (generate_tick t d).bid = (update_price t (1 / 1000) d.volDraw d.changeDraw).bid ∧
    (generate_tick t d).ask = (update_price t (1 / 1000) d.volDraw d.changeDraw).ask := by
  unfold generate_tick
  by_cases hsz : d.sizeFlag <;> by_cases htr : d.tradeFlag <;>
    simp [hsz, htr, update_price]

theorem generate_tick_ok (t : TickQ) (d : Draws)
    (hb : 0 < t.bidSize) (ha : 0 < t.askSize) (hd : validDraw d) :
    tickOk (generate_tick t d) := by
  obtain ⟨hbid, hask, -, -⟩ := update_price_ok t (1 / 1000) d.volDraw d.changeDraw
  obtain ⟨hs1, hs2, hs3, hs4⟩ := generate_tick_fields t d
  obtain ⟨⟨hd1, -⟩, ⟨hd2, -⟩, -⟩ := hd
  refine ⟨?_, ?_, ?_, ?_⟩
  · rw [hs3]; exact hbid
  · rw [hs3, hs4]; exact hask
  · rw [hs1]; split <;> omega
  · rw [hs2]; split <;> omega

/-- C3: every tick the market-data engine publishes into its output ring —
for every symbol, initial price, and sequence of random draws from the
engine's distributions — satisfies `0.01 ≤ bid`, `bid + 0.01 ≤ ask`,
`bid_size > 0`, `ask_size > 0`, from the very first published tick onward.
(`double` arithmetic is modelled exactly over `ℚ`; the bounds come from the
two `std::max` clamps in `update_price` and the positive size draws.) -/
theorem every_published_tick_valid (t0 : TickQ) (ds : List Draws)
    (hb : 0 < t0.bidSize) (ha : 0 < t0.askSize)
    (hd : ∀ d ∈ ds, validDraw d) :
    ∀ t ∈ tickStream t0 ds, tickOk t := by
  induction ds generalizing t0 with
  | nil => intro t ht; simp [tickStream] at ht
  | cons d ds ih =>
    intro t ht
    have hd0 : validDraw d := hd d (by simp)
    have hok : tickOk (generate_tick t0 d) := generate_tick_ok t0 d hb ha hd0
    simp only [tickStream, List.mem_cons] at ht
    rcases ht with rfl | ht
    · exact hok
    · exact ih (generate_tick t0 d) hok.2.2.1 hok.2.2.2
        (fun d2 h2 => hd d2 (by simp [h2])) t ht

/-! ## Monitor percentiles (C8) -/

/-- C8: on an empty reservoir every field of the latency stats is zero; on a
non-empty reservoir of `N` samples the reported p99 is the element at index
`⌊0.99·N⌋` of the reservoir sorted ascending (the index is always in range, so
the defensive clamp in `calculate_percentile` never fires), and in particular
the reported p99 is one of the recorded samples. -/
theorem latency_stats_p99 :
    get_latency_stats [] = ⟨0, 0, 0, 0, 0⟩ ∧
    ∀ samples : List Nat, samples ≠ [] →
      (get_latency_stats samples).p99_latency =
          (sortedSamples samples).getD (99 * samples.length / 100) 0 ∧
      99 * samples.length / 100 < samples.length ∧
      (get_latency_stats samples).p99_latency ∈ samples := by
  refine ⟨rfl, ?_⟩
  intro samples hne
  have hlen : 0 < samples.length := List.length_pos.mpr hne
  have hidx : 99 * samples.length / 100 < samples.length := by
    rw [Nat.div_lt_iff_lt_mul (by omega)]
    omega
  have hempty : samples.isEmpty = false := by
    cases samples with
    | nil => exact absurd rfl hne
    | cons a l => rfl
  have hp99 : (get_latency_stats samples).p99_latency = calculate_percentile samples := by
    unfold get_latency_stats
    rw [hempty]
    rfl
  have hsortlen : (sortedSamples samples).length = samples.length := by
    unfold sortedSamples
    exact List.length_insertionSort _ _
  have hcalc : calculate_percentile samples =
      (sortedSamples samples).getD (99 * samples.length / 100) 0 := by
    unfold calculate_percentile
    rw [hempty]
    simp only [Bool.false_eq_true, if_false]
    rw [if_neg (by omega)]
  refine ⟨hp99.trans hcalc, hidx, ?_⟩
  rw [hp99, hcalc]
  have hlt : 99 * samples.length / 100 < (sortedSamples samples).length := by
    rw [hsortlen]; exact hidx
  rw [List.getD_eq_getElem _ _ hlt]
  have hmem : (sortedSamples samples)[99 * samples.length / 100] ∈ sortedSamples samples :=
    List.getElem_mem _
  unfold sortedSamples at hmem
  exact (List.mem_insertionSort _).mp hmem

theorem latency_stats_p99_witness :
    ([1000, 2000, 3000] : List Nat) ≠ [] ∧
    (get_latency_stats [1000, 2000, 3000]).p99_latency =
      (sortedSamples [1000, 2000, 3000]).getD (99 * [1000, 2000, 3000].length / 100) 0 ∧
    (get_latency_stats [1000, 2000, 3000]).p99_latency = 3000 :=
  ⟨by decide, (latency_stats_p99.2 [1000, 2000, 3000] (by decide)).1, by decide⟩

/-! ## Feed-facade filtering (C9) -/

/-- C9: when the feed's `get_tick` pops a tick from the engine ring, the call
returns `true` exactly when the tick's symbol is in the current subscription
set (so every tick reported as present is subscribed); the popped tick is
removed from the ring either way, so a non-subscribed tick is reported as
empty (`false`) and is permanently discarded. -/
theorem feed_get_tick_filters {Size : Nat} (f : Feed Size) (t : TickQ)
    (q2 : SPSCQueue TickQ Size) (hq : f.sim.wf)
    (hpop : f.sim.pop = (some t, q2)) :
    ((f.get_tick.1 = true) ↔ t.symbol ∈ f.subscribed) ∧
    f.get_tick.2.1 = some t ∧
    f.get_tick.2.2 = { f with sim := q2 } ∧
    f.sim.toList = t :: q2.toList := by
  have hne : f.sim.head ≠ f.sim.tail := by
    intro he
    rw [(f.sim.pop_empty hq he).1] at hpop
    exact absurd (congrArg Prod.fst hpop) (by simp)
  obtain ⟨q3, hp3, -, hlist⟩ := f.sim.pop_not_empty hq hne
  have htq : some (f.sim.buffer f.sim.head) = some t := by
    rw [hp3] at hpop
    exact congrArg Prod.fst hpop
  have hq23 : q3 = q2 := by
    rw [hp3] at hpop
    exact congrArg Prod.snd hpop
  refine ⟨?_, ?_, ?_, ?_⟩
  · unfold Feed.get_tick
    rw [hpop]
    simp
  · unfold Feed.get_tick
    rw [hpop]
  · unfold Feed.get_tick
    rw [hpop]
  · rw [hlist, hq23, Option.some_inj.mp htq]

theorem feed_get_tick_filters_witness :
    feed0.sim.pop = (some tick0, ⟨1, 1, fun _ => tick0⟩) ∧
    ((feed0.get_tick.1 = true) ↔ tick0.symbol ∈ feed0.subscribed) ∧
    feed0.sim.toList = tick0 :: SPSCQueue.toList (⟨1, 1, fun _ => tick0⟩ : SPSCQueue TickQ 4) :=
  ⟨rfl,
   (feed_get_tick_filters feed0 tick0 ⟨1, 1, fun _ => tick0⟩ (by decide) rfl).1,
   (feed_get_tick_filters feed0 tick0 ⟨1, 1, fun _ => tick0⟩ (by decide) rfl).2.2.2⟩

/-! ## FIX codec: decimal rendering and `std::stoi` -/

theorem natDecAux_digits (fuel : Nat) :
    ∀ n, n < fuel → ∀ b ∈ natDecAux fuel n, 48 ≤ b ∧ b ≤ 57 := by
  induction fuel with
  | zero => intro n hn; omega
  | succ fuel ih =>
    intro n hn b hb
    unfold natDecAux at hb
    split at hb
    · simp at hb
      omega
    · rw [List.mem_append] at hb
      rcases hb with hb | hb
      · exact ih (n / 10) (by omega) b hb
      · simp at hb
        omega

theorem natDec_digits (n : Nat) : ∀ b ∈ natDec n, 48 ≤ b ∧ b ≤ 57 :=
  natDecAux_digits (n + 1) n (by omega)

theorem natDec_ne_nil (n : Nat) : natDec n ≠ [] := by
  unfold natDec natDecAux
  split <;> simp

theorem isDigitByte_iff (b : Nat) : isDigitByte b = true ↔ 48 ≤ b ∧ b ≤ 57 := by
  simp [isDigitByte]

theorem isSpaceByte_eq_false (b : Nat) (h : 48 ≤ b) : isSpaceByte b = false := by
  rw [Bool.eq_false_iff]
  intro hcontra
  simp only [isSpaceByte, Bool.or_eq_true, beq_iff_eq, Bool.and_eq_true,
    decide_eq_true_eq] at hcontra
  omega

/-- Reading a run of digit bytes followed by anything: the accumulator shifts
left by the run's length and takes the run's value. -/
theorem readDigits_append (xs : List Nat) (hxs : ∀ b ∈ xs, isDigitByte b = true) :
    ∀ (ys : List Nat) (acc : Nat),
      readDigits (xs ++ ys) acc = readDigits ys (readDigits xs acc).1 := by
  induction xs with
  | nil => intro ys acc; simp [readDigits]
  | cons b bs ih =>
    intro ys acc
    have hb : isDigitByte b = true := hxs b (by simp)
    simp only [List.cons_append, readDigits, hb, if_true]
    exact ih (fun c hc => hxs c (by simp [hc])) ys (acc * 10 + (b - 48))

theorem readDigits_natDecAux (fuel : Nat) :
    ∀ n, n < fuel → ∀ acc : Nat,
      readDigits (natDecAux fuel n) acc =
        (acc * 10 ^ (natDecAux fuel n).length + n, []) := by
  induction fuel with
  | zero => intro n hn; omega
  | succ fuel ih =>
    intro n hn acc
    unfold natDecAux
    split
    · have hd : isDigitByte (n + 48) = true := by
        rw [isDigitByte_iff]; omega
      simp only [readDigits, hd, if_true, List.length_cons, List.length_nil]
      rw [Prod.mk.injEq]
      exact ⟨by rw [pow_one]; omega, rfl⟩
    · have hdig : ∀ b ∈ natDecAux fuel (n / 10), isDigitByte b = true := by
        intro b hb
        rw [isDigitByte_iff]
        exact natDecAux_digits fuel (n / 10) (by omega) b hb
      rw [readDigits_append _ hdig, ih (n / 10) (by omega) acc]
      have hd : isDigitByte (n % 10 + 48) = true := by
        rw [isDigitByte_iff]; omega
      simp only [readDigits, hd, if_true]
      rw [List.length_append, List.length_cons, List.length_nil, Prod.mk.injEq]
      refine ⟨?_, rfl⟩
      rw [pow_succ]
      have h2 : (acc * 10 ^ (natDecAux fuel (n / 10)).length + n / 10) * 10 =
          acc * (10 ^ (natDecAux fuel (n / 10)).length * 10) + n / 10 * 10 := by ring
      rw [h2]
      omega

theorem readDigits_natDec (n : Nat) (acc : Nat) :
    readDigits (natDec n) acc = (acc * 10 ^ (natDec n).length + n, []) :=
  readDigits_natDecAux (n + 1) n (by omega) acc

theorem natDec_head_digit (n : Nat) :
    ∃ b bs, natDec n = b :: bs ∧ isDigitByte b = true := by
  cases h : natDec n with
  | nil => exact absurd h (natDec_ne_nil n)
  | cons b bs =>
    refine ⟨b, bs, rfl, ?_⟩
    rw [isDigitByte_iff]
    exact natDec_digits n b (by rw [h]; simp)

theorem stoiOpt_natDec (n : Nat) (h : n < 2147483648) :
    stoiOpt (natDec n) = some ((n : Int)) := by
  obtain ⟨b, bs, hcons, hdig⟩ := natDec_head_digit n
  have hb48 : 48 ≤ b ∧ b ≤ 57 := (isDigitByte_iff b).mp hdig
  have hdrop : (natDec n).dropWhile isSpaceByte = natDec n := by
    rw [hcons, List.dropWhile_cons, isSpaceByte_eq_false b hb48.1]
    simp
  have hcore : stoiCore (natDec n) = some ((n : Int)) := by
    rw [hcons]
    simp only [stoiCore]
    rw [if_neg (by omega : ¬b = 45), if_neg (by omega : ¬b = 43), if_pos hdig, ← hcons,
      readDigits_natDec]
    simp
  unfold stoiOpt
  rw [hdrop, hcore]
  show (if stoiRange ((n : Int)) then some ((n : Int)) else none) = some ((n : Int))
  rw [if_pos (by unfold stoiRange; omega)]

theorem intDec_bytes (t : Int) : ∀ b ∈ intDec t, b = 45 ∨ (48 ≤ b ∧ b ≤ 57) := by
  intro b hb
  unfold intDec at hb
  split at hb
  · rw [List.mem_cons] at hb
    rcases hb with hb | hb
    · left; exact hb
    · right; exact natDec_digits _ b hb
  · right; exact natDec_digits _ b hb

theorem stoiOpt_intDec (t : Int) (h : stoiRange t) : stoiOpt (intDec t) = some t := by
  unfold intDec
  split
  · next hneg =>
    obtain ⟨b, bs, hcons, hdig⟩ := natDec_head_digit t.natAbs
    have h45 : isSpaceByte 45 = false := by decide
    have hdrop : (45 :: natDec t.natAbs).dropWhile isSpaceByte = 45 :: natDec t.natAbs := by
      rw [List.dropWhile_cons, h45]
      simp
    have hcore : stoiCore (45 :: natDec t.natAbs) = some (-((t.natAbs : Int))) := by
      simp only [stoiCore]
      rw [if_pos trivial, hcons]
      simp only [List.head?_cons, Option.any_some, hdig, if_true]
      rw [← hcons, readDigits_natDec]
      simp
    unfold stoiOpt
    rw [hdrop, hcore]
    show (if stoiRange (-((t.natAbs : Int))) then some (-((t.natAbs : Int))) else none) =
      some t
    have hv : -((t.natAbs : Int)) = t := by omega
    rw [hv, if_pos h]
  · next hpos =>
    have hlt : t.toNat < 2147483648 := by
      unfold stoiRange at h
      omega
    rw [stoiOpt_natDec t.toNat hlt]
    congr 1
    omega

/-! ## FIX codec: the parse loop -/

/-- While scanning for `'='`, non-61 bytes are accumulated (reversed) into the
tag text. -/
theorem parseGo_tag_phase (pre : List Nat) (hpre : (61 : Nat) ∉ pre) :
    ∀ (acc : FieldMap) (cur rest : List Nat),
      parseGo acc none cur (pre ++ rest) = parseGo acc none (pre.reverse ++ cur) rest := by
  induction pre with
  | nil => intro acc cur rest; simp
  | cons b pre ih =>
    intro acc cur rest
    have hb : ¬b = 61 := by
      intro he
      exact hpre (by rw [he]; simp)
    simp only [List.cons_append, parseGo, hb, if_false, List.append_eq]
    rw [ih (fun hm => hpre (by simp [hm])) acc (b :: cur) rest]
    simp

/-- While scanning for SOH, non-SOH bytes are accumulated (reversed) into the
value text. -/
theorem parseGo_value_phase (v : List Nat) (hv : SOH ∉ v) :
    ∀ (acc : FieldMap) (tagBytes cur rest : List Nat),
      parseGo acc (some tagBytes) cur (v ++ rest) =
        parseGo acc (some tagBytes) (v.reverse ++ cur) rest := by
  induction v with
  | nil => intro acc tagBytes cur rest; simp
  | cons b v ih =>
    intro acc tagBytes cur rest
    have hb : ¬b = SOH := by
      intro he
      exact hv (by rw [he]; simp)
    simp only [List.cons_append, parseGo, hb, if_false, List.append_eq]
    rw [ih (fun hm => hv (by simp [hm])) acc tagBytes (b :: cur) rest]
    simp

/-- Ending the input inside a value: the (unterminated) value is stored and
parsing returns. -/
theorem parseGo_value_end (v : List Nat) (hv : SOH ∉ v) (acc : FieldMap)
    (tagBytes : List Nat) (tag : Int) (ht : stoiOpt tagBytes = some tag) :
    parseGo acc (some tagBytes) [] v = Except.ok (mapInsert tag v acc) := by
  have h := parseGo_value_phase v hv acc tagBytes [] []
  rw [List.append_nil, List.append_nil] at h
  rw [h]
  simp only [parseGo, ht, List.reverse_reverse]

/-- Parsing one serialized field `tag=value⟨SOH⟩` whose value holds no SOH and
whose tag text converts back, then continuing with the rest. -/
theorem parseGo_field (t : Int) (v : List Nat) (acc : FieldMap) (rest : List Nat)
    (hv : SOH ∉ v) (ht : stoiOpt (intDec t) = some t) :
    parseGo acc none [] (serializeField t v ++ rest) =
      parseGo (mapInsert t v acc) none [] rest := by
  have h61 : (61 : Nat) ∉ intDec t := by
    intro hm
    rcases intDec_bytes t 61 hm with hc | hc <;> omega
  have heq : serializeField t v ++ rest = intDec t ++ (61 :: (v ++ (SOH :: rest))) := by
    simp [serializeField, SOH]
  rw [heq, parseGo_tag_phase (intDec t) h61]
  simp only [List.append_nil, parseGo, if_pos rfl, List.reverse_reverse]
  rw [parseGo_value_phase v hv]
  simp only [List.append_nil, parseGo, if_pos rfl, ht, List.reverse_reverse]
  simp

/-- Parsing the concatenation of a list of serialized fields folds them into
the map left to right. -/
theorem parseGo_fieldList (l : FieldMap) :
    ∀ (acc : FieldMap) (rest : List Nat),
      (∀ f ∈ l, SOH ∉ f.2 ∧ stoiOpt (intDec f.1) = some f.1) →
      parseGo acc none [] ((l.map (fun f => serializeField f.1 f.2)).flatten ++ rest) =
        parseGo (l.foldl (fun a f => mapInsert f.1 f.2 a) acc) none [] rest := by
  induction l with
  | nil => intro acc rest _; simp
  | cons f l ih =>
    intro acc rest hl
    obtain ⟨hv, ht⟩ := hl f (by simp)
    simp only [List.map_cons, List.flatten_cons, List.append_assoc, List.foldl_cons]
    rw [parseGo_field f.1 f.2 acc _ hv ht]
    exact ih (mapInsert f.1 f.2 acc) rest (fun g hg => hl g (by simp [hg]))

/-- C7 counterexample: parsing the input `"abc=1"` does not terminate normally:
`std::stoi("abc")` throws `std::invalid_argument` out of `parse_message`. -/
theorem parse_nonnumeric_tag_throws :
    parse_message cexParseInput = Except.error () := rfl

/-- C7 amended: for every input, parsing terminates normally (without
throwing) exactly when every tag text it scans converts under `std::stoi`; a
non-convertible tag text makes `std::stoi` throw out of `parse_message`.
On a malformed header the loop stops as described: with no `'='` remaining in
the input the frame keeps exactly the fields parsed before that point, and a
value unterminated at end-of-input is itself stored before parsing stops. -/
theorem parse_termination_behavior :
    (∀ (s : List Nat) (phase : Option (List Nat)) (cur : List Nat) (acc : FieldMap),
        (parseGo acc phase cur s).isOk = tagsOk phase cur s) ∧
    (∀ (s : List Nat) (cur : List Nat) (acc : FieldMap), (61 : Nat) ∉ s →
        parseGo acc none cur s = Except.ok acc) ∧
    (∀ (tagBytes v : List Nat) (tag : Int) (acc : FieldMap), (61 : Nat) ∉ tagBytes →
        SOH ∉ v → stoiOpt tagBytes = some tag →
        parseGo acc none [] (tagBytes ++ 61 :: v) = Except.ok (mapInsert tag v acc)) := by
  refine ⟨?_, ?_, ?_⟩
  · intro s
    induction s with
    | nil =>
      intro phase cur acc
      cases phase with
      | none => rfl
      | some tagBytes =>
        simp only [parseGo, tagsOk]
        cases stoiOpt tagBytes <;> rfl
    | cons b bs ih =>
      intro phase cur acc
      cases phase with
      | none =>
        simp only [parseGo, tagsOk]
        by_cases hb : b = 61 <;> simp only [hb, if_true, if_false, ih]
      | some tagBytes =>
        simp only [parseGo, tagsOk]
        by_cases hb : b = SOH <;> simp only [hb, if_true, if_false, ih]
        cases hs : stoiOpt tagBytes
        · have h1 : (Except.error () : Except Unit FieldMap).isOk = false := rfl
          simp [hs, h1]
        · simp [hs, ih]
  · intro s
    induction s with
    | nil => intro cur acc _; rfl
    | cons b bs ih =>
      intro cur acc hs
      have hb : ¬b = 61 := fun he => hs (by rw [he]; simp)
      simp only [parseGo, hb, if_false]
      exact ih (b :: cur) acc (fun hm => hs (by simp [hm]))
  · intro tagBytes v tag acc h61 hv ht
    rw [parseGo_tag_phase tagBytes h61]
    simp only [List.append_nil, parseGo, if_pos rfl, List.reverse_reverse]
    rw [parseGo_value_end v hv acc tagBytes tag ht]
    simp

theorem parse_termination_behavior_witness :
    ((61 : Nat) ∉ ([97, 98, 99] : List Nat) ∧
      parseGo [] none [] [97, 98, 99] = Except.ok []) ∧
    (parseGo [] none [] ([51, 53] ++ 61 :: [88, 89]) =
      Except.ok (mapInsert 35 [88, 89] [])) :=
  ⟨⟨by decide, parse_termination_behavior.2.1 [97, 98, 99] [] [] (by decide)⟩,
   parse_termination_behavior.2.2 [51, 53] [88, 89] 35 [] (by decide) (by decide)
     (by decide)⟩

/-! ## FIX codec: the ordered field map (`std::map<int, std::string>`) -/

theorem alookup_eq_none (m : FieldMap) (t : Int) (h : ∀ f ∈ m, f.1 ≠ t) :
    alookup t m = none := by
  induction m with
  | nil => rfl
  | cons f m ih =>
    simp only [alookup, if_neg (h f (by simp))]
    exact ih (fun g hg => h g (by simp [hg]))

theorem mem_mapInsert (t : Int) (v : List Nat) (m : FieldMap) :
    ∀ g ∈ mapInsert t v m, g = (t, v) ∨ g ∈ m := by
  induction m with
  | nil => intro g hg; simp only [mapInsert] at hg; simp at hg; left; exact hg
  | cons f m ih =>
    intro g hg
    simp only [mapInsert] at hg
    split at hg
    · rcases (List.mem_cons.mp hg) with h1 | h1
      · left; exact h1
      · right; exact h1
    · split at hg
      · rcases (List.mem_cons.mp hg) with h1 | h1
        · left; exact h1
        · right; exact List.mem_cons_of_mem f h1
      · rcases (List.mem_cons.mp hg) with h1 | h1
        · right; exact List.mem_cons.mpr (Or.inl h1)
        · rcases ih g h1 with h2 | h2
          · left; exact h2
          · right; exact List.mem_cons_of_mem f h2

theorem sortedMap_mapInsert (t : Int) (v : List Nat) (m : FieldMap)
    (hm : sortedMap m) : sortedMap (mapInsert t v m) := by
  induction m with
  | nil => simp [mapInsert, sortedMap]
  | cons f m ih =>
    rw [sortedMap, List.pairwise_cons] at hm
    obtain ⟨hf, hm2⟩ := hm
    simp only [mapInsert]
    split
    · next hlt =>
      rw [sortedMap, List.pairwise_cons]
      refine ⟨?_, List.pairwise_cons.mpr ⟨hf, hm2⟩⟩
      intro g hg
      rcases List.mem_cons.mp hg with h1 | h1
      · rw [h1]; exact hlt
      · exact lt_trans hlt (hf g h1)
    · split
      · next heq =>
        rw [sortedMap, List.pairwise_cons]
        exact ⟨fun g hg => heq ▸ hf g hg, hm2⟩
      · next hne hgt =>
        rw [sortedMap, List.pairwise_cons]
        refine ⟨?_, ih hm2⟩
        intro g hg
        rcases mem_mapInsert t v m g hg with h1 | h1
        · rw [h1]; omega
        · exact hf g h1

theorem alookup_mapInsert (t : Int) (v : List Nat) (m : FieldMap) (t2 : Int) :
    alookup t2 (mapInsert t v m) = if t = t2 then some v else alookup t2 m := by
  induction m with
  | nil =>
    simp only [mapInsert, alookup]
  | cons f m ih =>
    simp only [mapInsert]
    by_cases hlt : t < f.1
    · rw [if_pos hlt]
      by_cases h2 : t = t2 <;> simp [alookup, h2]
    · rw [if_neg hlt]
      by_cases heq : t = f.1
      · rw [if_pos heq]
        by_cases h2 : t = t2
        · simp [alookup, h2]
        · have hf2 : ¬(f.1 = t2) := by rw [← heq]; exact h2
          simp [alookup, h2, hf2]
      · rw [if_neg heq]
        by_cases hf2 : f.1 = t2
        · have ht2 : ¬(t = t2) := by omega
          simp [alookup, hf2, ht2]
        · simp [alookup, hf2, ih]

theorem alookup_keys_gt (m : FieldMap) (t : Int) (h : ∀ f ∈ m, t < f.1) :
    alookup t m = none :=
  alookup_eq_none m t (fun f hf => by have := h f hf; omega)

/-- Two sorted maps with the same lookups are the same list. -/
theorem sortedMap_ext (m1 : FieldMap) :
    ∀ m2 : FieldMap, sortedMap m1 → sortedMap m2 →
      (∀ t, alookup t m1 = alookup t m2) → m1 = m2 := by
  induction m1 with
  | nil =>
    intro m2 _ _ hl
    cases m2 with
    | nil => rfl
    | cons g m2 =>
      have h := hl g.1
      simp [alookup] at h
  | cons f m1 ih =>
    intro m2 h1 h2 hl
    cases m2 with
    | nil =>
      have h := hl f.1
      simp [alookup] at h
    | cons g m2 =>
      rw [sortedMap, List.pairwise_cons] at h1 h2
      obtain ⟨hf1, hm1⟩ := h1
      obtain ⟨hg2, hm2⟩ := h2
      have hkey : f.1 = g.1 := by
        by_contra hne
        rcases lt_or_gt_of_ne hne with hlt | hgt
        · have h := hl f.1
          simp only [alookup, if_pos rfl] at h
          rw [if_neg (show ¬(g.1 = f.1) by omega)] at h
          rw [alookup_keys_gt m2 f.1 (fun k hk => lt_trans hlt (hg2 k hk))] at h
          exact Option.noConfusion h
        · have h := hl g.1
          simp only [alookup, if_pos rfl] at h
          rw [if_neg (show ¬(f.1 = g.1) by omega)] at h
          rw [alookup_keys_gt m1 g.1 (fun k hk => lt_trans hgt (hf1 k hk))] at h
          exact Option.noConfusion h
      have hval : f.2 = g.2 := by
        have h := hl f.1
        simp only [alookup, if_pos rfl] at h
        rw [if_pos hkey.symm] at h
        exact Option.some_inj.mp h
      have htail : m1 = m2 := by
        apply ih m2 hm1 hm2
        intro t
        by_cases ht : t = f.1
        · rw [ht, alookup_keys_gt m1 f.1 hf1,
            alookup_keys_gt m2 f.1 (fun k hk => hkey ▸ hg2 k hk)]
        · have h := hl t
          simp only [alookup] at h
          rw [if_neg (by omega), if_neg (by rw [← hkey]; omega)] at h
          exact h
      calc f :: m1 = (f.1, f.2) :: m1 := rfl
        _ = (g.1, g.2) :: m2 := by rw [hkey, hval, htail]
        _ = g :: m2 := rfl

theorem alookup_append (m1 m2 : FieldMap) (t : Int) :
    alookup t (m1 ++ m2) =
      match alookup t m1 with
      | some v => some v
      | none => alookup t m2 := by
  induction m1 with
  | nil => simp [alookup]
  | cons f m1 ih =>
    simp only [List.cons_append, alookup]
    split
    · rfl
    · exact ih

theorem alookup_filter_pos (p : Int → Bool) (m : FieldMap) (t : Int) (hp : p t = true) :
    alookup t (m.filter (fun f => p f.1)) = alookup t m := by
  induction m with
  | nil => rfl
  | cons f m ih =>
    by_cases hf : p f.1 = true
    · simp only [List.filter_cons, hf, if_true, alookup, ih]
    · have hne : ¬(f.1 = t) := by
        intro he
        rw [he] at hf
        exact hf hp
      simp only [List.filter_cons, hf, Bool.false_eq_true, if_false, alookup,
        if_neg hne, ih]

theorem alookup_filter_neg (p : Int → Bool) (m : FieldMap) (t : Int) (hp : p t = false) :
    alookup t (m.filter (fun f => p f.1)) = none := by
  apply alookup_eq_none
  intro f hf he
  have := List.of_mem_filter hf
  rw [he, hp] at this
  exact absurd this (by simp)

theorem sortedMap_filter (p : (Int × List Nat) → Bool) (m : FieldMap) (hm : sortedMap m) :
    sortedMap (m.filter p) :=
  hm.sublist (List.filter_sublist m)

theorem alookup_foldl_mapInsert (l : FieldMap) :
    ∀ (acc : FieldMap) (t : Int), l.Pairwise (fun a b => a.1 ≠ b.1) →
      alookup t (l.foldl (fun a f => mapInsert f.1 f.2 a) acc) =
        match alookup t l with
        | some v => some v
        | none => alookup t acc := by
  induction l with
  | nil => intro acc t _; simp [alookup]
  | cons f l ih =>
    intro acc t hdist
    rw [List.pairwise_cons] at hdist
    obtain ⟨hf, hl⟩ := hdist
    simp only [List.foldl_cons]
    rw [ih (mapInsert f.1 f.2 acc) t hl]
    by_cases ht : f.1 = t
    · have hnone : alookup t l = none :=
        alookup_eq_none l t (fun g hg => by have := hf g hg; omega)
      rw [hnone]
      simp only [alookup, if_pos ht, alookup_mapInsert, if_pos ht]
    · simp only [alookup, if_neg ht, alookup_mapInsert, if_neg ht]

theorem sortedMap_foldl_mapInsert (l : FieldMap) :
    ∀ acc : FieldMap, sortedMap acc →
      sortedMap (l.foldl (fun a f => mapInsert f.1 f.2 a) acc) := by
  induction l with
  | nil => intro acc h; exact h
  | cons f l ih =>
    intro acc h
    exact ih _ (sortedMap_mapInsert f.1 f.2 acc h)

/-! ## FIX codec: checksum rendering (C4) -/

theorem natDecAux_length (fuel : Nat) :
    ∀ n, n < fuel → ∀ k, 1 ≤ k → n < 10 ^ k → (natDecAux fuel n).length ≤ k := by
  induction fuel with
  | zero => intro n hn; omega
  | succ fuel ih =>
    intro n hn k hk hnk
    unfold natDecAux
    split
    · simp
      omega
    · have hk2 : 2 ≤ k := by
        by_contra hc
        have hk1 : k = 1 := by omega
        rw [hk1, pow_one] at hnk
        omega
      rw [List.length_append, List.length_cons, List.length_nil]
      have hdiv : n / 10 < 10 ^ (k - 1) := by
        have h10 : 10 ^ k = 10 ^ (k - 1) * 10 := by
          rw [← pow_succ]
          congr 1
          omega
        rw [h10] at hnk
        omega
      have := ih (n / 10) (by omega) (k - 1) (by omega) hdiv
      omega

theorem pad3_length (n : Nat) (h : n < 1000) : (pad3 n).length = 3 := by
  unfold pad3
  rw [List.length_append, List.length_replicate]
  have hlen : (natDec n).length ≤ 3 :=
    natDecAux_length (n + 1) n (by omega) 3 (by omega) (by norm_num; omega)
  omega

theorem pad3_digits (n : Nat) : ∀ b ∈ pad3 n, 48 ≤ b ∧ b ≤ 57 := by
  intro b hb
  unfold pad3 at hb
  rw [List.mem_append] at hb
  rcases hb with hb | hb
  · have := List.eq_of_mem_replicate hb
    omega
  · exact natDec_digits n b hb

theorem readDigits_replicate_zeros (z : Nat) :
    readDigits (List.replicate z 48) 0 = (0, []) := by
  induction z with
  | zero => rfl
  | succ z ih =>
    rw [List.replicate_succ]
    simp only [readDigits]
    rw [if_pos (show isDigitByte 48 = true from rfl)]
    exact ih

/-- Zero-padding does not change the decoded value: the three rendered digits
decode to the checksum. -/
theorem readDigits_pad3 (n : Nat) : readDigits (pad3 n) 0 = (n, []) := by
  unfold pad3
  have hdig : ∀ b ∈ List.replicate (3 - (natDec n).length) 48, isDigitByte b = true := by
    intro b hb
    have hb48 := List.eq_of_mem_replicate hb
    rw [hb48]
    rfl
  rw [readDigits_append _ hdig, readDigits_replicate_zeros, readDigits_natDec]
  simp

theorem to_string_checksum_split (m : FieldMap) :
    to_string m =
      preChecksum m ++ serializeField 10 (pad3 (byteSum (preChecksum m) % 256)) := by
  unfold to_string serializeField
  simp [List.append_assoc]

/-- C4: every serialized frame ends with the checksum field `10=ddd⟨SOH⟩`
where `ddd` is exactly three ASCII decimal digits (zero-padded) decoding to
the sum of all bytes of the serialization strictly before the start of the
checksum field, taken modulo 256. -/
theorem fix_checksum_field (m : FieldMap) :
    to_string m =
        preChecksum m ++ serializeField 10 (pad3 (byteSum (preChecksum m) % 256)) ∧
    (pad3 (byteSum (preChecksum m) % 256)).length = 3 ∧
    (∀ b ∈ pad3 (byteSum (preChecksum m) % 256), 48 ≤ b ∧ b ≤ 57) ∧
    readDigits (pad3 (byteSum (preChecksum m) % 256)) 0 =
      (byteSum (preChecksum m) % 256, []) := by
  have hlt : byteSum (preChecksum m) % 256 < 1000 := by
    have := Nat.mod_lt (byteSum (preChecksum m)) (show 0 < 256 by omega)
    omega
  exact ⟨to_string_checksum_split m, pad3_length _ hlt, pad3_digits _, readDigits_pad3 _⟩

/-! ## FIX round trip (C1) -/

theorem isBodyTag_spec (t : Int) : isBodyTag t = true ↔ t ≠ 8 ∧ t ≠ 9 ∧ t ≠ 10 := by
  simp [isBodyTag, and_assoc]

theorem to_string_eq_flatten (m : FieldMap) :
    to_string m =
      (((8, get_field m 8) :: (9, natDec (bodyStr m).length) ::
          (m.filter (fun f => isBodyTag f.1) ++
            [(10, pad3 (byteSum (preChecksum m) % 256))])).map
        (fun f => serializeField f.1 f.2)).flatten := by
  have hbody : ((m.filter (fun f => isBodyTag f.1)).map
      (fun f => serializeField f.1 f.2)).flatten = bodyStr m := rfl
  simp only [List.map_cons, List.map_append, List.map_nil, List.flatten_cons,
    List.flatten_append, List.flatten_nil, List.append_nil, hbody]
  unfold to_string preChecksum serializeField
  simp [List.append_assoc]

theorem get_field_eq_of_alookup (m : FieldMap) (t : Int) (v : List Nat)
    (h : alookup t m = some v) : get_field m t = v := by
  unfold get_field
  rw [h]

/-- Serialization depends on the map only through the begin-string value and
the body fields. -/
theorem to_string_congr (m1 m2 : FieldMap) (h8 : get_field m1 8 = get_field m2 8)
    (hb : bodyStr m1 = bodyStr m2) : to_string m1 = to_string m2 := by
  unfold to_string preChecksum
  rw [h8, hb]

set_option maxHeartbeats 2000000 in
/-- C1 (amended): round trip for frames of user-set fields whose values hold
no SOH byte.  A frame carrying the constructor's `8=FIX.4.4`, no user-set
body-length or checksum tag, values free of the SOH delimiter, and tags in the
`int` range, serializes to a byte string that parses back and re-serializes to
the identical byte string; in particular the reparsed frame carries exactly
the body-length and checksum emitted by the first serialization. -/
theorem fix_round_trip (fields : FieldMap)
    (hsorted : sortedMap fields)
    (h8 : alookup 8 fields = some fix44)
    (_h9 : alookup 9 fields = none)
    (_h10 : alookup 10 fields = none)
    (hsoh : ∀ f ∈ fields, SOH ∉ f.2)
    (htags : ∀ f ∈ fields, stoiRange f.1) :
    ∃ parsed : FieldMap,
      parse_message (to_string fields) = Except.ok parsed ∧
      to_string parsed = to_string fields ∧
      alookup 9 parsed = some (natDec (bodyStr fields).length) ∧
      alookup 10 parsed = some (pad3 (byteSum (preChecksum fields) % 256)) := by
  have hgf8 : get_field fields 8 = fix44 := by
    unfold get_field
    rw [h8]
  have hbodyTag : ∀ f ∈ fields.filter (fun f => isBodyTag f.1),
      f.1 ≠ 8 ∧ f.1 ≠ 9 ∧ f.1 ≠ 10 := by
    intro f hf
    exact (isBodyTag_spec f.1).mp (List.mem_filter.mp hf).2
  -- the field list whose serializations make up the full frame
  have hfieldsOk : ∀ f ∈ ((8, get_field fields 8) :: (9, natDec (bodyStr fields).length) ::
      (fields.filter (fun f => isBodyTag f.1) ++
        [(10, pad3 (byteSum (preChecksum fields) % 256))])),
      SOH ∉ f.2 ∧ stoiOpt (intDec f.1) = some f.1 := by
    intro f hf
    rcases List.mem_cons.mp hf with hf | hf
    · rw [hf, hgf8]
      exact ⟨by decide, show stoiOpt (intDec 8) = some 8 by decide⟩
    rcases List.mem_cons.mp hf with hf | hf
    · rw [hf]
      refine ⟨?_, show stoiOpt (intDec 9) = some 9 by decide⟩
      intro hm
      have hdg := natDec_digits _ _ hm
      unfold SOH at hdg
      omega
    rcases List.mem_append.mp hf with hf | hf
    · refine ⟨hsoh f (List.mem_of_mem_filter hf), ?_⟩
      exact stoiOpt_intDec f.1 (htags f (List.mem_of_mem_filter hf))
    · rw [List.mem_singleton.mp hf]
      refine ⟨?_, show stoiOpt (intDec 10) = some 10 by decide⟩
      intro hm
      have hdg := pad3_digits _ _ hm
      unfold SOH at hdg
      omega
  have hparse : parse_message (to_string fields) =
      Except.ok (((8, get_field fields 8) :: (9, natDec (bodyStr fields).length) ::
        (fields.filter (fun f => isBodyTag f.1) ++
          [(10, pad3 (byteSum (preChecksum fields) % 256))])).foldl
        (fun a f => mapInsert f.1 f.2 a) []) := by
    unfold parse_message
    rw [to_string_eq_flatten]
    have h := parseGo_fieldList _ [] [] hfieldsOk
    rw [List.append_nil] at h
    exact h
  have hdistinct : (((8, get_field fields 8) :: (9, natDec (bodyStr fields).length) ::
      (fields.filter (fun f => isBodyTag f.1) ++
        [(10, pad3 (byteSum (preChecksum fields) % 256))])) :
        FieldMap).Pairwise (fun a b => a.1 ≠ b.1) := by
    have hbodySorted : sortedMap (fields.filter (fun f => isBodyTag f.1)) :=
      sortedMap_filter _ fields hsorted
    have hbodyNe : (fields.filter (fun f => isBodyTag f.1)).Pairwise
        (fun a b : Int × List Nat => a.1 ≠ b.1) :=
      hbodySorted.imp (fun hab => by omega)
    rw [List.pairwise_cons]
    constructor
    · intro g hg
      show (8 : Int) ≠ g.1
      rcases List.mem_cons.mp hg with hg | hg
      · rw [hg]
        show (8 : Int) ≠ 9
        decide
      rcases List.mem_append.mp hg with hg | hg
      · have hk := hbodyTag g hg
        omega
      · rw [List.mem_singleton.mp hg]
        show (8 : Int) ≠ 10
        decide
    rw [List.pairwise_cons]
    constructor
    · intro g hg
      show (9 : Int) ≠ g.1
      rcases List.mem_append.mp hg with hg | hg
      · have hk := hbodyTag g hg
        omega
      · rw [List.mem_singleton.mp hg]
        show (9 : Int) ≠ 10
        decide
    rw [List.pairwise_append]
    refine ⟨hbodyNe, List.pairwise_singleton _ _, ?_⟩
    intro g hg g2 hg2
    rw [List.mem_singleton.mp hg2]
    show g.1 ≠ (10 : Int)
    have hk := hbodyTag g hg
    omega
  have hlookup : ∀ t : Int,
      alookup t (((8, get_field fields 8) :: (9, natDec (bodyStr fields).length) ::
        (fields.filter (fun f => isBodyTag f.1) ++
          [(10, pad3 (byteSum (preChecksum fields) % 256))])).foldl
        (fun a f => mapInsert f.1 f.2 a) []) =
      alookup t ((8, get_field fields 8) :: (9, natDec (bodyStr fields).length) ::
        (fields.filter (fun f => isBodyTag f.1) ++
          [(10, pad3 (byteSum (preChecksum fields) % 256))])) := by
    intro t
    rw [alookup_foldl_mapInsert _ [] t hdistinct]
    cases alookup t ((8, get_field fields 8) :: (9, natDec (bodyStr fields).length) ::
        (fields.filter (fun f => isBodyTag f.1) ++
          [(10, pad3 (byteSum (preChecksum fields) % 256))])) <;> rfl
  have hMsorted : sortedMap (((8, get_field fields 8) ::
      (9, natDec (bodyStr fields).length) ::
      (fields.filter (fun f => isBodyTag f.1) ++
        [(10, pad3 (byteSum (preChecksum fields) % 256))])).foldl
      (fun a f => mapInsert f.1 f.2 a) []) :=
    sortedMap_foldl_mapInsert _ [] List.Pairwise.nil
  -- lookups in the assembled list
  have hL9 : alookup 9 ((8, get_field fields 8) :: (9, natDec (bodyStr fields).length) ::
      (fields.filter (fun f => isBodyTag f.1) ++
        [(10, pad3 (byteSum (preChecksum fields) % 256))])) =
      some (natDec (bodyStr fields).length) := by
    simp [alookup]
  have hL10 : alookup 10 ((8, get_field fields 8) :: (9, natDec (bodyStr fields).length) ::
      (fields.filter (fun f => isBodyTag f.1) ++
        [(10, pad3 (byteSum (preChecksum fields) % 256))])) =
      some (pad3 (byteSum (preChecksum fields) % 256)) := by
    simp only [alookup, if_neg (show ¬((8:Int) = 10) by omega),
      if_neg (show ¬((9:Int) = 10) by omega)]
    rw [alookup_append]
    rw [alookup_filter_neg _ _ _ (by decide)]
    simp [alookup]
  have hL8 : alookup 8 ((8, get_field fields 8) :: (9, natDec (bodyStr fields).length) ::
      (fields.filter (fun f => isBodyTag f.1) ++
        [(10, pad3 (byteSum (preChecksum fields) % 256))])) =
      some (get_field fields 8) := by
    simp [alookup]
  have hLbody : ∀ t : Int, isBodyTag t = true →
      alookup t ((8, get_field fields 8) :: (9, natDec (bodyStr fields).length) ::
        (fields.filter (fun f => isBodyTag f.1) ++
          [(10, pad3 (byteSum (preChecksum fields) % 256))])) =
      alookup t fields := by
    intro t ht
    obtain ⟨ht8, ht9, ht10⟩ := (isBodyTag_spec t).mp ht
    simp only [alookup, if_neg (show ¬((8:Int) = t) by omega),
      if_neg (show ¬((9:Int) = t) by omega)]
    rw [alookup_append, alookup_filter_pos _ _ _ ht]
    cases hc : alookup t fields with
    | some v => rfl
    | none =>
      simp [alookup, show ¬((10:Int) = t) by omega]
  -- the reparsed map serializes identically
  have hfilterEq : (((8, get_field fields 8) :: (9, natDec (bodyStr fields).length) ::
      (fields.filter (fun f => isBodyTag f.1) ++
        [(10, pad3 (byteSum (preChecksum fields) % 256))])).foldl
      (fun a f => mapInsert f.1 f.2 a) []).filter (fun f => isBodyTag f.1) =
      fields.filter (fun f => isBodyTag f.1) := by
    apply sortedMap_ext _ _ (sortedMap_filter _ _ hMsorted) (sortedMap_filter _ _ hsorted)
    intro t
    by_cases hp : isBodyTag t = true
    · rw [alookup_filter_pos _ _ _ hp, alookup_filter_pos _ _ _ hp, hlookup, hLbody t hp]
    · have hp2 : isBodyTag t = false := by
        revert hp
        cases isBodyTag t <;> simp
      rw [alookup_filter_neg _ _ _ hp2, alookup_filter_neg _ _ _ hp2]
  have hbodyEq : bodyStr (((8, get_field fields 8) ::
      (9, natDec (bodyStr fields).length) ::
      (fields.filter (fun f => isBodyTag f.1) ++
        [(10, pad3 (byteSum (preChecksum fields) % 256))])).foldl
      (fun a f => mapInsert f.1 f.2 a) []) = bodyStr fields :=
    congrArg
      (fun l : FieldMap =>
        (List.map (fun f : Int × List Nat => serializeField f.1 f.2) l).flatten)
      hfilterEq
  have hgf8M : get_field (((8, get_field fields 8) ::
      (9, natDec (bodyStr fields).length) ::
      (fields.filter (fun f => isBodyTag f.1) ++
        [(10, pad3 (byteSum (preChecksum fields) % 256))])).foldl
      (fun a f => mapInsert f.1 f.2 a) []) 8 = fix44 :=
    get_field_eq_of_alookup _ 8 fix44 (by rw [hlookup, hL8, hgf8])
  refine ⟨_, hparse, ?_, ?_, ?_⟩
  · exact to_string_congr _ _ (by rw [hgf8M, hgf8]) hbodyEq
  · rw [hlookup, hL9]
  · rw [hlookup, hL10]

/-- C1 counterexample: the frame `{8 ↦ "FIX.4.4", 35 ↦ "\x0135=X"}` — a
user-set field value containing the SOH delimiter — serializes, parses back
without error, but re-serializes to a different byte string (the embedded SOH
splits the value into two fields during parsing).  So the round trip is not
byte-identical for every user-built frame. -/
theorem fix_round_trip_cex :
    ((parse_message (to_string cexFields)).toOption.map to_string).isSome = true ∧
    (parse_message (to_string cexFields)).toOption.map to_string ≠
      some (to_string cexFields) := by decide

theorem fix_round_trip_witness :
    Except.map to_string
        (parse_message (to_string [(8, fix44), (34, [49]), (35, [68]), (55, [65, 65])])) =
      Except.ok (to_string [(8, fix44), (34, [49]), (35, [68]), (55, [65, 65])]) := by
  obtain ⟨parsed, h1, h2, -, -⟩ :=
    fix_round_trip [(8, fix44), (34, [49]), (35, [68]), (55, [65, 65])]
      (by decide) (by decide) (by decide) (by decide) (by decide) (by decide)
  rw [h1]
  show Except.ok (to_string parsed) = _
  rw [h2]

theorem every_published_tick_valid_witness :
    (0 : Int) < (initialTick [84] 100 500 600 50 0).bidSize ∧
    validDraw draw0 ∧
    tickOk (generate_tick (initialTick [84] 100 500 600 50 0) draw0) :=
  ⟨by decide, by decide,
   every_published_tick_valid (initialTick [84] 100 500 600 50 0) [draw0]
     (by decide) (by decide) (by intro d hd; simp at hd; subst hd; decide)
     (generate_tick (initialTick [84] 100 500 600 50 0) draw0)
     (by simp [tickStream])⟩

end HftSpec
